import Mathlib

/-
  Verification development for the SignalFlow social-automation workspace
  (src/app/layout.tsx).  The data model and operations below are a shallow
  embedding of the TypeScript source: pure functions become Lean functions,
  the React state updates become explicit AppState-to-AppState functions, and
  the external collaborators (clock, identity, locale date formatting) become
  explicit parameters, as the code reads them on demand.

  The placeholder scanner in the source is the regular expression
  scan over the template body with the global flag (match and replace).
  Its pattern is: a left brace, one or more characters that are not a right
  brace (greedy), then a right brace.  Since the interior class excludes only
  the right brace, a match starting at a left brace succeeds exactly when a
  right brace occurs later with at least one character in between, and the
  match ends at the first such right brace; a left brace immediately followed
  by a right brace does not match and both characters stay literal; an
  unclosed left brace stays literal.  This is implemented below as a
  single-pass automaton (parseRun / mergeRun / chunkRun) whose state is an
  optional buffer of the characters read since the last unmatched left brace;
  the recursion is structural so that concrete inputs evaluate in the kernel.
-/

def lbrace : Char := '\x7b'

def rbrace : Char := '\x7d'

inductive Platform where
  | twitter | linkedin | instagram | facebook | tiktok | youtube
deriving DecidableEq, Repr

def platformName : Platform → String
  | .twitter => "Twitter"
  | .linkedin => "LinkedIn"
  | .instagram => "Instagram"
  | .facebook => "Facebook"
  | .tiktok => "TikTok"
  | .youtube => "YouTube"

def joinPlatforms (ps : List Platform) : String :=
  String.intercalate ", " (ps.map platformName)

inductive PostStatus where
  | pending | approved | scheduled | published
deriving DecidableEq, Repr

def statusRank : PostStatus → Nat
  | .pending => 0
  | .approved => 1
  | .scheduled => 2
  | .published => 3

structure Template where
  id : String
  name : String
  description : String
  platforms : List Platform
  content : String
  tags : List String
  createdAt : String
  updatedAt : String
  usageCount : Nat
deriving DecidableEq, Repr

structure ScheduledPost where
  id : String
  templateId : String
  templateName : String
  values : List (String × String)
  finalMessage : String
  platforms : List Platform
  scheduledAt : Option String
  status : PostStatus
  createdAt : String
  approvedAt : Option String
  publishedAt : Option String
  notes : Option String
  mediaUrl : Option String
  reviewers : List String
deriving DecidableEq, Repr

inductive ActivityCategory where
  | template | post
deriving DecidableEq, Repr

structure ActivityEntry where
  id : String
  timestamp : String
  summary : String
  detail : Option String
  category : ActivityCategory
deriving DecidableEq, Repr

structure AppState where
  templates : List Template
  posts : List ScheduledPost
  activity : List ActivityEntry
deriving DecidableEq, Repr

structure TemplateFormState where
  id : Option String
  name : String
  description : String
  content : String
  platforms : List Platform
  tags : String
deriving DecidableEq, Repr

/- String utilities mirroring the JavaScript built-ins used by the source. -/

def trimChars (l : List Char) : List Char :=
  ((l.dropWhile Char.isWhitespace).reverse.dropWhile Char.isWhitespace).reverse

def strTrim (s : String) : String :=
  String.mk (trimChars s.data)

def splitCommaAux (cur : List Char) : List Char → List String
  | [] => [String.mk cur.reverse]
  | c :: cs =>
      if c = ',' then String.mk cur.reverse :: splitCommaAux [] cs
      else splitCommaAux (c :: cur) cs

def splitComma (s : String) : List String :=
  splitCommaAux [] s.data

def stripBraces (l : List Char) : List Char :=
  l.filter (fun c => !(c = lbrace || c = rbrace))

def dedupFirstAux (seen : List String) : List String → List String
  | [] => []
  | x :: xs => if x ∈ seen then dedupFirstAux seen xs else x :: dedupFirstAux (x :: seen) xs

def dedupFirst (l : List String) : List String :=
  dedupFirstAux [] l

def lookupVal : List (String × String) → String → Option String
  | [], _ => none
  | kv :: rest, k => if kv.1 = k then some kv.2 else lookupVal rest k

/- The placeholder scan.  parseRun collects the raw captures (the characters
   strictly between a matching brace pair) in match order; mergeRun produces
   the replaced text of the source merge function; chunkRun keeps the
   complete decomposition into literal characters and captures. -/

def parseRun : Option (List Char) → List Char → List (List Char)
  | _, [] => []
  | none, c :: cs => if c = lbrace then parseRun (some []) cs else parseRun none cs
  | some buf, c :: cs =>
      if c = rbrace then
        if buf = [] then parseRun none cs else buf.reverse :: parseRun none cs
      else parseRun (some (c :: buf)) cs

def parseChars (l : List Char) : List (List Char) :=
  parseRun none l

def cleanName (a : List Char) : Option String :=
  let n := trimChars (stripBraces a)
  if n = [] then none else some (String.mk n)

def parsePlaceholders (template : String) : List String :=
  dedupFirst ((parseChars template.data).filterMap cleanName)

def mergeRun (values : List (String × String)) : Option (List Char) → List Char → List Char
  | none, [] => []
  | some buf, [] => lbrace :: buf.reverse
  | none, c :: cs =>
      if c = lbrace then mergeRun values (some []) cs else c :: mergeRun values none cs
  | some buf, c :: cs =>
      if c = rbrace then
        if buf = [] then lbrace :: rbrace :: mergeRun values none cs
        else
          match lookupVal values (String.mk (trimChars buf.reverse)) with
          | some v => v.data ++ mergeRun values none cs
          | none => lbrace :: (trimChars buf.reverse ++ rbrace :: mergeRun values none cs)
      else mergeRun values (some (c :: buf)) cs

def mergeTemplateContent (template : String) (values : List (String × String)) : String :=
  String.mk (mergeRun values none template.data)

inductive Chunk where
  | lit : Char → Chunk
  | tok : List Char → Chunk
deriving DecidableEq, Repr

def chunkRun : Option (List Char) → List Char → List Chunk
  | none, [] => []
  | some buf, [] => (lbrace :: buf.reverse).map Chunk.lit
  | none, c :: cs => if c = lbrace then chunkRun (some []) cs else .lit c :: chunkRun none cs
  | some buf, c :: cs =>
      if c = rbrace then
        if buf = [] then .lit lbrace :: .lit rbrace :: chunkRun none cs
        else .tok buf.reverse :: chunkRun none cs
      else chunkRun (some (c :: buf)) cs

def chunksOf (l : List Char) : List Chunk :=
  chunkRun none l

/-- Per-token output rule of the merge, as the specification words it: a
token whose trimmed name is bound in the mapping is replaced by the bound
value (an explicit empty string counts as bound), and a token whose trimmed
name is unbound is re-emitted as the token of the trimmed name. -/
def chunkText (values : List (String × String)) : Chunk → List Char
  | .lit c => [c]
  | .tok a =>
      match lookupVal values (String.mk (trimChars a)) with
      | some v => v.data
      | none => lbrace :: (trimChars a ++ [rbrace])

/-- Extractor as the specification words it: scan the tokens, trim the
captured name, ignore captures that trim to nothing, collapse duplicates to
their first appearance. -/
def specExtract (body : String) : List String :=
  dedupFirst ((chunksOf body.data).filterMap (fun ch =>
    match ch with
    | .tok a => if trimChars a = [] then none else some (String.mk (trimChars a))
    | .lit _ => none))

/- Workspace operations, translated from the page component.  The clock and
   identity collaborators become the now / entryId / freshId parameters and
   the locale date formatter used only inside one activity detail becomes the
   fmt parameter. -/

def appendActivity (entries : List ActivityEntry) (entry : ActivityEntry) : List ActivityEntry :=
  (entry :: entries).take 40

def upsertTemplate (entryId : String) (template : Template) (s : AppState) : AppState :=
  let isKnown := s.templates.any (fun item => item.id = template.id)
  let templates :=
    if isKnown then s.templates.map (fun item => if item.id = template.id then template else item)
    else template :: s.templates
  let activityEntry : ActivityEntry :=
    if isKnown then
      { id := entryId, timestamp := template.updatedAt,
        summary := "Template updated: " ++ template.name,
        detail := some "Structure refreshed", category := .template }
    else
      { id := entryId, timestamp := template.createdAt,
        summary := "New template: " ++ template.name,
        detail := some ("Platforms: " ++ joinPlatforms template.platforms),
        category := .template }
  { s with templates := templates, activity := appendActivity s.activity activityEntry }

def removeTemplate (entryId now : String) (id : String) (s : AppState) : AppState :=
  { s with
    templates := s.templates.filter (fun template => !(template.id = id)),
    activity := appendActivity s.activity
      { id := entryId, timestamp := now, summary := "Template archived",
        detail := some "Removed from library", category := .template } }

def addPost (entryId now : String) (post : ScheduledPost) (s : AppState) : AppState :=
  { s with
    posts := post :: s.posts,
    templates := s.templates.map (fun template =>
      if template.id = post.templateId then
        { template with usageCount := template.usageCount + 1 }
      else template),
    activity := appendActivity s.activity
      { id := entryId, timestamp := now, summary := "Staged: " ++ post.templateName,
        detail := some ("Awaiting approval for " ++ joinPlatforms post.platforms),
        category := .post } }

def setPostStatus (now : String) (id : String) (status : PostStatus) (s : AppState) : AppState :=
  { s with
    posts := s.posts.map (fun post =>
      if post.id = id then
        match status with
        | .approved => { post with status := status, approvedAt := some now }
        | .published => { post with status := status, publishedAt := some now }
        | _ => { post with status := status }
      else post) }

def deletePost (entryId now : String) (id : String) (s : AppState) : AppState :=
  { s with
    posts := s.posts.filter (fun post => !(post.id = id)),
    activity := appendActivity s.activity
      { id := entryId, timestamp := now, summary := "Post removed",
        detail := some "Cleared from queue", category := .post } }

def findPost (s : AppState) (id : String) : Option ScheduledPost :=
  s.posts.find? (fun item => item.id = id)

def findTemplate (s : AppState) (id : String) : Option Template :=
  s.templates.find? (fun item => item.id = id)

def handleApprove (now entryId : String) (id : String) (s : AppState) : AppState :=
  match findPost s id with
  | none => setPostStatus now id .approved s
  | some post =>
    { s with
      posts := s.posts.map (fun item =>
        if item.id = id then { item with status := .approved, approvedAt := some now } else item),
      activity := appendActivity s.activity
        { id := entryId, timestamp := now, summary := "Approved: " ++ post.templateName,
          detail := some ("Ready for " ++ joinPlatforms post.platforms), category := .post } }

def handlePublish (now entryId : String) (id : String) (s : AppState) : AppState :=
  match findPost s id with
  | none => setPostStatus now id .published s
  | some post =>
    { s with
      posts := s.posts.map (fun item =>
        if item.id = id then { item with status := .published, publishedAt := some now } else item),
      activity := appendActivity s.activity
        { id := entryId, timestamp := now, summary := "Published: " ++ post.templateName,
          detail := some ("Shipped to " ++ joinPlatforms post.platforms), category := .post } }

def handleSchedule (fmt : String → String) (now entryId : String) (id : String) (s : AppState) : AppState :=
  match findPost s id with
  | none => setPostStatus now id .scheduled s
  | some post =>
    { s with
      posts := s.posts.map (fun item =>
        if item.id = id then { item with status := .scheduled } else item),
      activity := appendActivity s.activity
        { id := entryId, timestamp := now, summary := "Scheduled: " ++ post.templateName,
          detail := post.scheduledAt.map (fun d => "Publishes " ++ fmt d), category := .post } }

def handleSubmit (now freshId entryId : String) (form : TemplateFormState) (s : AppState) : AppState :=
  if strTrim form.name = "" ∨ strTrim form.content = "" then s
  else
    let payload : Template :=
      { id := form.id.getD freshId,
        name := strTrim form.name,
        description := if strTrim form.description = "" then "Untitled template"
                       else strTrim form.description,
        platforms := form.platforms,
        content := strTrim form.content,
        tags := ((splitComma form.tags).map strTrim).filter (fun t => t ≠ ""),
        createdAt :=
          match form.id with
          | some fid => ((s.templates.find? (fun tpl => tpl.id = fid)).map (·.createdAt)).getD now
          | none => now,
        updatedAt := now,
        usageCount :=
          match form.id with
          | some fid => ((s.templates.find? (fun tpl => tpl.id = fid)).map (·.usageCount)).getD 0
          | none => 0 }
    upsertTemplate entryId payload s

/- Derived observations and predicates used by the claims. -/

def postStatusOf (s : AppState) (id : String) : Option PostStatus :=
  (findPost s id).map (·.status)

def usageOf (s : AppState) (id : String) : Option Nat :=
  (findTemplate s id).map (·.usageCount)

/-- Frozen-snapshot relation between a post before and after an operation:
the compose-time fields are identical. -/
def frozenEq (p q : ScheduledPost) : Prop :=
  q.templateName = p.templateName ∧ q.values = p.values ∧
  q.finalMessage = p.finalMessage ∧ q.createdAt = p.createdAt

/-- Post ids are pairwise distinct, as the identity collaborator guarantees. -/
def postsWf (s : AppState) : Prop :=
  (s.posts.map (·.id)).Nodup

/-- Every scheduled post carries a schedule timestamp. -/
def schedInv (s : AppState) : Prop :=
  ∀ p ∈ s.posts, p.status = .scheduled → p.scheduledAt.isSome

/-- A token of the given name occurs somewhere in the character list. -/
def tokSeg (n : String) (l : List Char) : Prop :=
  ∃ p s, l = p ++ (lbrace :: (n.data ++ [rbrace])) ++ s

/-- No complete brace pair in the list encloses a nonempty name: every left
brace is either immediately closed or its first following right brace does
not exist. -/
def noBadTok (l : List Char) : Prop :=
  ∀ p n s, l = p ++ lbrace :: (n ++ rbrace :: s) → n = [] ∨ rbrace ∈ n

/-- Guarded workflow steps: the status transitions exactly as the rendered
UI allows them to be requested (approve from pending; mark-scheduled from
approved with a schedule set; publish from approved or scheduled), plus post
composition with a fresh id and the template operations.  Post deletion ends
a post's lifetime and is not a transition of that post. -/
inductive GStep : AppState → AppState → Prop where
  | approve (s : AppState) (now entryId pid : String)
      (h : postStatusOf s pid = some .pending) :
      GStep s (handleApprove now entryId pid s)
  | sched (s : AppState) (fmt : String → String) (now entryId pid : String)
      (h : postStatusOf s pid = some .approved)
      (h2 : ∃ p, findPost s pid = some p ∧ p.scheduledAt.isSome) :
      GStep s (handleSchedule fmt now entryId pid s)
  | publish (s : AppState) (now entryId pid : String)
      (h : postStatusOf s pid = some .approved ∨ postStatusOf s pid = some .scheduled) :
      GStep s (handlePublish now entryId pid s)
  | compose (s : AppState) (entryId now : String) (post : ScheduledPost)
      (hfresh : findPost s post.id = none) (hp : post.status = .pending) :
      GStep s (addPost entryId now post s)
  | save (s : AppState) (entryId : String) (tpl : Template) :
      GStep s (upsertTemplate entryId tpl s)
  | removeT (s : AppState) (entryId now tid : String) :
      GStep s (removeTemplate entryId now tid s)

/- Registry operation scripts, used to express usage-count accounting over
   arbitrary interleavings. -/

inductive TOp where
  | compose (entryId now : String) (post : ScheduledPost)
  | save (entryId : String) (tpl : Template)
  | removeT (entryId now tid : String)
deriving Repr

def applyTOp (s : AppState) : TOp → AppState
  | .compose entryId now post => addPost entryId now post s
  | .save entryId tpl => upsertTemplate entryId tpl s
  | .removeT entryId now tid => removeTemplate entryId now tid s

def applyTOps (s : AppState) (ops : List TOp) : AppState :=
  ops.foldl applyTOp s

def composesTid (tid : String) : TOp → Bool
  | .compose _ _ post => post.templateId = tid
  | _ => false

def sparesTid (tid : String) : TOp → Bool
  | .compose _ _ _ => true
  | .save _ tpl => !(tpl.id = tid)
  | .removeT _ _ rid => !(rid = tid)

/- Concrete sample data for counterexamples and witnesses. -/

def samplePost (pid tid : String) (st : PostStatus) (sched : Option String) : ScheduledPost :=
  { id := pid, templateId := tid, templateName := "Product Launch Pulse",
    values := [("hook", "Big news")], finalMessage := "Big news", platforms := [.twitter],
    scheduledAt := sched, status := st, createdAt := "2024-01-01T00:00:00Z",
    approvedAt := none, publishedAt := none, notes := none, mediaUrl := none,
    reviewers := ["Maya"] }

def sampleTemplate (tid : String) (uses : Nat) : Template :=
  { id := tid, name := "Product Launch Pulse", description := "Announce a launch",
    platforms := [.twitter, .linkedin], content := "\x7bhook\x7d", tags := ["#LaunchDay"],
    createdAt := "2024-01-01T00:00:00Z", updatedAt := "2024-01-01T00:00:00Z",
    usageCount := uses }

def c1state : AppState :=
  { templates := [], posts := [samplePost "p1" "t1" .published none], activity := [] }

def c2state0 : AppState :=
  { templates := [sampleTemplate "t1" 3], posts := [], activity := [] }

def c2state1 : AppState := addPost "e1" "ts1" (samplePost "p1" "t1" .pending none) c2state0

def c2state2 : AppState := handleApprove "ts2" "e2" "p1" c2state1

def c2state3 : AppState := handlePublish "ts3" "e3" "p1" c2state2

def c2state4 : AppState := handleApprove "ts4" "e4" "p1" c2state3

def c2wstate : AppState :=
  { templates := [], posts := [samplePost "p1" "t1" .pending (some "2025-01-01")], activity := [] }

def c6state : AppState :=
  { templates := [sampleTemplate "t1" 3, sampleTemplate "t2" 5], posts := [], activity := [] }

def c6ops : List TOp :=
  [ .compose "e1" "ts1" (samplePost "p1" "t1" .pending none),
    .save "e2" (sampleTemplate "t2" 5),
    .compose "e3" "ts2" (samplePost "p2" "t1" .pending none),
    .removeT "e4" "ts3" "t2",
    .compose "e5" "ts4" (samplePost "p3" "zzz" .pending none) ]

def c7form : TemplateFormState :=
  { id := some "t1", name := "  Renamed  ", description := "", content := " \x7bhook\x7d! ",
    platforms := [.linkedin], tags := "#a, ,#b" }

def c7state : AppState :=
  { templates := [sampleTemplate "t1" 3], posts := [], activity := [] }

def sampleEntry : ActivityEntry :=
  { id := "a", timestamp := "ts", summary := "old", detail := none, category := .post }

def c10state : AppState :=
  { templates := [], posts := [], activity := List.replicate 40 sampleEntry }

/- Generic list lemmas. -/

theorem mem_of_mem_trimChars {c : Char} {l : List Char} (h : c ∈ trimChars l) : c ∈ l := by
  unfold trimChars at h
  rw [List.mem_reverse] at h
  have h1 := (List.dropWhile_sublist (l := (l.dropWhile Char.isWhitespace).reverse)
    (p := Char.isWhitespace)).mem h
  rw [List.mem_reverse] at h1
  exact (List.dropWhile_sublist (l := l) (p := Char.isWhitespace)).mem h1

theorem stripBraces_of {a : List Char} (h1 : lbrace ∉ a) (h2 : rbrace ∉ a) :
    stripBraces a = a := by
  unfold stripBraces
  apply List.filter_eq_self.mpr
  intro c hc
  simp only [Bool.not_eq_true', Bool.or_eq_false_iff, decide_eq_false_iff_not]
  exact ⟨fun e => h1 (e ▸ hc), fun e => h2 (e ▸ hc)⟩

theorem lookupVal_mem {m : List (String × String)} {k v : String}
    (h : lookupVal m k = some v) : (k, v) ∈ m := by
  induction m with
  | nil => simp [lookupVal] at h
  | cons kv rest ih =>
    by_cases hk : kv.1 = k
    · simp only [lookupVal, hk, if_pos] at h
      have hv : kv.2 = v := Option.some.inj h
      have : (k, v) = kv := by
        cases kv; cases hk; cases hv; rfl
      rw [this]
      exact List.mem_cons_self _ _
    · simp only [lookupVal, hk, if_neg, if_false] at h
      exact List.mem_cons_of_mem _ (ih h)

/- Lemmas about the token-free shape of merged output. -/

theorem noBadTok_nil : noBadTok [] := by
  intro p n s h
  cases p <;> simp_all

theorem noBadTok_cons {c : Char} {t : List Char} (hc : c ≠ lbrace) (ht : noBadTok t) :
    noBadTok (c :: t) := by
  intro p n s h
  cases p with
  | nil =>
    rw [List.nil_append, List.cons.injEq] at h
    exact absurd h.1 hc
  | cons x p' =>
    rw [List.cons_append, List.cons.injEq] at h
    exact ht p' n s h.2

theorem noBadTok_block {v t : List Char} (hv : lbrace ∉ v) (ht : noBadTok t) :
    noBadTok (v ++ t) := by
  induction v with
  | nil => simpa using ht
  | cons c v' ih =>
    rw [List.cons_append]
    refine noBadTok_cons (fun e => hv ?_) (ih (fun e => hv (List.mem_cons_of_mem _ e)))
    rw [e]
    exact List.mem_cons_self _ _

theorem noBadTok_pair {t : List Char} (ht : noBadTok t) :
    noBadTok (lbrace :: rbrace :: t) := by
  intro p n s h
  cases p with
  | nil =>
    rw [List.nil_append, List.cons.injEq] at h
    cases n with
    | nil => exact Or.inl rfl
    | cons y n' =>
      rw [List.cons_append, List.cons.injEq] at h
      refine Or.inr ?_
      rw [← h.2.1]
      exact List.mem_cons_self _ _
  | cons x p' =>
    rw [List.cons_append, List.cons.injEq] at h
    cases p' with
    | nil =>
      rw [List.nil_append, List.cons.injEq] at h
      exact absurd h.2.1 (by decide)
    | cons y p'' =>
      rw [List.cons_append, List.cons.injEq] at h
      exact ht p'' n s h.2.2

theorem noBadTok_open {t : List Char} (ht : rbrace ∉ t) : noBadTok (lbrace :: t) := by
  intro p n s h
  cases p with
  | nil =>
    rw [List.nil_append, List.cons.injEq] at h
    exact absurd (by rw [h.2]; simp : rbrace ∈ t) ht
  | cons x p' =>
    rw [List.cons_append, List.cons.injEq] at h
    exact absurd (by rw [h.2]; simp : rbrace ∈ t) ht

/- Captures produced by the scan never contain a right brace, because the
   buffer only accumulates characters that are not the closing brace. -/

theorem parseRun_no_rbrace (l : List Char) :
    ∀ (st : Option (List Char)), (∀ buf, st = some buf → rbrace ∉ buf) →
      ∀ a ∈ parseRun st l, rbrace ∉ a := by
  induction l with
  | nil =>
    intro st hst a ha
    cases st <;> simp [parseRun] at ha
  | cons c cs ih =>
    intro st hst a ha
    cases st with
    | none =>
      by_cases hc : c = lbrace
      · simp only [parseRun, hc, if_pos] at ha
        exact ih (some []) (by intro buf hb; cases hb; simp) a ha
      · simp only [parseRun, hc, if_neg, if_false] at ha
        exact ih none (by intro buf hb; cases hb) a ha
    | some buf =>
      by_cases hc : c = rbrace
      · by_cases hb : buf = []
        · simp only [parseRun, hc, hb, if_pos] at ha
          exact ih none (by intro b hb'; cases hb') a ha
        · simp only [parseRun, hc, hb, if_pos, if_neg, if_false] at ha
          rcases List.mem_cons.mp ha with h | h
          · subst h
            intro hr
            exact hst buf rfl (List.mem_reverse.mp hr)
          · exact ih none (by intro b hb'; cases hb') a h
      · simp only [parseRun, hc, if_neg, if_false] at ha
        refine ih (some (c :: buf)) ?_ a ha
        intro b hb'
        cases hb'
        intro hr
        rcases List.mem_cons.mp hr with h | h
        · exact hc h.symm
        · exact hst buf rfl h

/-- Merged output has no complete brace pair around a nonempty name, as long
as: every capture of the scan is free of the left brace, every capture whose
trimmed name is nonempty is bound in the mapping, and every value in the
mapping is free of the left brace.  The state hypothesis says the pending
buffer holds no right brace, which the scan maintains. -/
theorem mergeRun_noBadTok (m : List (String × String)) (l : List Char) :
    ∀ (st : Option (List Char)),
      (∀ buf, st = some buf → rbrace ∉ buf) →
      (∀ a ∈ parseRun st l, lbrace ∉ a) →
      (∀ a ∈ parseRun st l, trimChars a ≠ [] →
        (lookupVal m (String.mk (trimChars a))).isSome) →
      (∀ kv ∈ m, lbrace ∉ kv.2.data) →
      noBadTok (mergeRun m st l) := by
  induction l with
  | nil =>
    intro st hst Hc Hm Hv
    cases st with
    | none => exact noBadTok_nil
    | some buf =>
      simp only [mergeRun]
      refine noBadTok_open ?_
      intro hr
      exact hst buf rfl (List.mem_reverse.mp hr)
  | cons c cs ih =>
    intro st hst Hc Hm Hv
    cases st with
    | none =>
      by_cases hc : c = lbrace
      · simp only [mergeRun, hc, if_pos]
        rw [hc] at Hc Hm
        simp only [parseRun, if_pos rfl] at Hc Hm
        exact ih (some []) (by intro b hb; cases hb; simp) Hc Hm Hv
      · simp only [mergeRun, if_neg hc]
        simp only [parseRun, if_neg hc] at Hc Hm
        exact noBadTok_cons hc (ih none (by intro b hb; cases hb) Hc Hm Hv)
    | some buf =>
      by_cases hc : c = rbrace
      · by_cases hb : buf = []
        · simp only [mergeRun, hc, hb, if_pos]
          simp only [parseRun, hc, hb, if_pos] at Hc Hm
          exact noBadTok_pair (ih none (by intro b hb'; cases hb') Hc Hm Hv)
        · simp only [mergeRun, hc, if_pos rfl, if_neg hb]
          simp only [parseRun, hc, if_pos rfl, if_neg hb] at Hc Hm
          have hmem : buf.reverse ∈ buf.reverse :: parseRun none cs := List.mem_cons_self _ _
          have Hc' : ∀ a ∈ parseRun none cs, lbrace ∉ a :=
            fun a ha => Hc a (List.mem_cons_of_mem _ ha)
          have Hm' : ∀ a ∈ parseRun none cs, trimChars a ≠ [] →
              (lookupVal m (String.mk (trimChars a))).isSome :=
            fun a ha => Hm a (List.mem_cons_of_mem _ ha)
          have hrec := ih none (by intro b hb'; cases hb') Hc' Hm' Hv
          cases hl : lookupVal m (String.mk (trimChars buf.reverse)) with
          | some v =>
            refine noBadTok_block ?_ hrec
            exact Hv _ (lookupVal_mem hl)
          | none =>
            by_cases ht : trimChars buf.reverse = []
            · rw [ht]
              exact noBadTok_pair hrec
            · have := Hm _ hmem ht
              rw [hl] at this
              simp at this
      · simp only [mergeRun, if_neg hc]
        simp only [parseRun, if_neg hc] at Hc Hm
        refine ih (some (c :: buf)) ?_ Hc Hm Hv
        intro b hb'
        cases hb'
        intro hr
        rcases List.mem_cons.mp hr with h | h
        · exact hc h.symm
        · exact hst buf rfl h

/- Membership through first-appearance deduplication. -/

theorem dedupFirstAux_mem (l : List String) :
    ∀ (seen : List String) (x : String), x ∈ dedupFirstAux seen l ↔ x ∈ l ∧ x ∉ seen := by
  induction l with
  | nil => intro seen x; simp [dedupFirstAux]
  | cons y ys ih =>
    intro seen x
    by_cases hy : y ∈ seen
    · simp only [dedupFirstAux, if_pos hy, ih, List.mem_cons]
      constructor
      · rintro ⟨h1, h2⟩; exact ⟨Or.inr h1, h2⟩
      · rintro ⟨h1 | h1, h2⟩
        · exact absurd (h1 ▸ hy) h2
        · exact ⟨h1, h2⟩
    · simp only [dedupFirstAux, if_neg hy, List.mem_cons, ih]
      constructor
      · rintro (h | ⟨h1, h2⟩)
        · exact ⟨Or.inl h, h ▸ hy⟩
        · exact ⟨Or.inr h1, fun hs => h2 (Or.inr hs)⟩
      · rintro ⟨h1 | h1, h2⟩
        · exact Or.inl h1
        · by_cases hxy : x = y
          · exact Or.inl hxy
          · exact Or.inr ⟨h1, fun hs => hs.elim hxy h2⟩

theorem dedupFirst_mem (l : List String) (x : String) : x ∈ dedupFirst l ↔ x ∈ l := by
  simp [dedupFirst, dedupFirstAux_mem]

theorem lbrace_not_mem_stripBraces (a : List Char) : lbrace ∉ stripBraces a := by
  intro h
  have := (List.mem_filter.mp h).2
  simp at this

theorem rbrace_not_mem_stripBraces (a : List Char) : rbrace ∉ stripBraces a := by
  intro h
  have := (List.mem_filter.mp h).2
  simp at this

/-- Every extracted name is nonempty and contains no brace, and comes from a
capture of the scan. -/
theorem parsePlaceholders_shape (body : String) (n : String)
    (hn : n ∈ parsePlaceholders body) :
    ∃ a ∈ parseChars body.data, n = String.mk (trimChars (stripBraces a)) ∧
      n.data ≠ [] ∧ lbrace ∉ n.data ∧ rbrace ∉ n.data := by
  rw [parsePlaceholders, dedupFirst_mem, List.mem_filterMap] at hn
  obtain ⟨a, ha, hclean⟩ := hn
  rw [cleanName] at hclean
  by_cases hne : trimChars (stripBraces a) = []
  · simp [hne] at hclean
  · simp only [hne, if_neg, if_false] at hclean
    have hcl : n = String.mk (trimChars (stripBraces a)) := (Option.some.inj hclean).symm
    subst hcl
    refine ⟨a, ha, rfl, hne, ?_, ?_⟩
    · intro h
      exact lbrace_not_mem_stripBraces a (mem_of_mem_trimChars h)
    · intro h
      exact rbrace_not_mem_stripBraces a (mem_of_mem_trimChars h)

theorem noBadTok_no_tokSeg {l : List Char} (h : noBadTok l) (n : String)
    (hne : n.data ≠ []) (hr : rbrace ∉ n.data) : ¬ tokSeg n l := by
  rintro ⟨p, s, he⟩
  have he' : l = p ++ lbrace :: (n.data ++ rbrace :: s) := by
    rw [he]
    simp [List.append_assoc]
  rcases h p n.data s he' with h1 | h1
  · exact hne h1
  · exact hr h1

/-- C3 counterexample: with the template body consisting of the single token
of name a, and a mapping that binds a (so it binds every extracted name) to
a value that itself spells that token, the merged output still contains the
token of the extracted name a, so merging with a covering mapping does not
guarantee the absence of the extracted tokens. -/
theorem c3_claim_counterexample :
    parsePlaceholders "\x7ba\x7d" = ["a"] ∧
    (∀ n ∈ parsePlaceholders "\x7ba\x7d", (lookupVal [("a", "\x7ba\x7d")] n).isSome) ∧
    tokSeg "a" (mergeTemplateContent "\x7ba\x7d" [("a", "\x7ba\x7d")]).data := by
  refine ⟨by decide, by decide, ⟨[], [], by decide⟩⟩

/-- C3 (amended): if every capture in the template body is free of the left
brace (no nested placeholder syntax), the mapping binds every extracted
name, and every value in the mapping is free of the left brace, then the
merged output contains no remaining token of any extracted name. -/
theorem c3_merge_leaves_no_extracted_token (body : String) (m : List (String × String))
    (Hc : ∀ a ∈ parseChars body.data, lbrace ∉ a)
    (Hcov : ∀ n ∈ parsePlaceholders body, (lookupVal m n).isSome)
    (Hv : ∀ kv ∈ m, lbrace ∉ kv.2.data) :
    ∀ n ∈ parsePlaceholders body, ¬ tokSeg n (mergeTemplateContent body m).data := by
  intro n hn
  obtain ⟨a0, ha0, hna0, hne, hnl, hnr⟩ := parsePlaceholders_shape body n hn
  have Hm : ∀ a ∈ parseRun none body.data, trimChars a ≠ [] →
      (lookupVal m (String.mk (trimChars a))).isSome := by
    intro a ha ht
    have harb : rbrace ∉ a :=
      parseRun_no_rbrace body.data none (by intro b hb; cases hb) a ha
    have halb : lbrace ∉ a := Hc a ha
    have hmem : String.mk (trimChars a) ∈ parsePlaceholders body := by
      rw [parsePlaceholders, dedupFirst_mem, List.mem_filterMap]
      refine ⟨a, ha, ?_⟩
      rw [cleanName, stripBraces_of halb harb]
      simp only [ht, if_neg, if_false]
    exact Hcov _ hmem
  have hnb : noBadTok (mergeRun m none body.data) :=
    mergeRun_noBadTok m body.data none (by intro b hb; cases hb) Hc Hm Hv
  have hout : (mergeTemplateContent body m).data = mergeRun m none body.data := rfl
  rw [hout]
  exact noBadTok_no_tokSeg hnb n hne hnr

/-- C3 witness: the amended theorem applied to a concrete body and covering
mapping. -/
theorem c3_merge_leaves_no_extracted_token_witness :
    (∀ a ∈ parseChars ("hi \x7ba\x7d and \x7bb\x7d").data, lbrace ∉ a) ∧
    (∀ n ∈ parsePlaceholders "hi \x7ba\x7d and \x7bb\x7d",
      (lookupVal [("a", "x"), ("b", "")] n).isSome) ∧
    (∀ n ∈ parsePlaceholders "hi \x7ba\x7d and \x7bb\x7d",
      ¬ tokSeg n (mergeTemplateContent "hi \x7ba\x7d and \x7bb\x7d"
        [("a", "x"), ("b", "")]).data) :=
  ⟨by decide, by decide,
    c3_merge_leaves_no_extracted_token _ _ (by decide) (by decide) (by decide)⟩

/- Correspondence between the direct scan and the chunk decomposition. -/

theorem flatten_chunkText_lit (m : List (String × String)) (xs : List Char) :
    ((xs.map Chunk.lit).map (chunkText m)).flatten = xs := by
  induction xs with
  | nil => rfl
  | cons c cs ih =>
    simp only [List.map_cons, List.flatten_cons]
    rw [ih]
    rfl

theorem mergeRun_eq_chunkRun (m : List (String × String)) (l : List Char) :
    ∀ st, mergeRun m st l = ((chunkRun st l).map (chunkText m)).flatten := by
  induction l with
  | nil =>
    intro st
    cases st with
    | none => rfl
    | some buf => exact (flatten_chunkText_lit m (lbrace :: buf.reverse)).symm
  | cons c cs ih =>
    intro st
    cases st with
    | none =>
      by_cases hc : c = lbrace
      · subst hc
        exact ih (some [])
      · simp only [mergeRun, chunkRun, if_neg hc, List.map_cons, List.flatten_cons]
        rw [ih none]
        rfl
    | some buf =>
      by_cases hc : c = rbrace
      · subst hc
        by_cases hb : buf = []
        · subst hb
          show lbrace :: rbrace :: mergeRun m none cs =
            ((Chunk.lit lbrace :: Chunk.lit rbrace :: chunkRun none cs).map
              (chunkText m)).flatten
          simp only [List.map_cons, List.flatten_cons]
          rw [ih none]
          rfl
        · show (if buf = [] then lbrace :: rbrace :: mergeRun m none cs
            else match lookupVal m (String.mk (trimChars buf.reverse)) with
              | some v => v.data ++ mergeRun m none cs
              | none => lbrace :: (trimChars buf.reverse ++ rbrace :: mergeRun m none cs)) =
            ((if buf = [] then Chunk.lit lbrace :: Chunk.lit rbrace :: chunkRun none cs
              else Chunk.tok buf.reverse :: chunkRun none cs).map (chunkText m)).flatten
          rw [if_neg hb, if_neg hb]
          simp only [List.map_cons, List.flatten_cons, chunkText]
          cases hl : lookupVal m (String.mk (trimChars buf.reverse)) with
          | some v =>
            rw [ih none]
          | none =>
            rw [ih none]
            simp [List.append_assoc]
      · simp only [mergeRun, chunkRun, if_neg hc]
        exact ih (some (c :: buf))

theorem filterMap_tokName_lit (xs : List Char) :
    (xs.map Chunk.lit).filterMap (fun ch =>
      match ch with
      | .tok a => if trimChars a = [] then none else some (String.mk (trimChars a))
      | .lit _ => none) = [] := by
  induction xs with
  | nil => simp
  | cons c cs ih => simp [ih]

theorem namesRun_eq (l : List Char) :
    ∀ st, (∀ a ∈ parseRun st l, lbrace ∉ a) →
      (∀ buf, st = some buf → rbrace ∉ buf) →
      (parseRun st l).filterMap cleanName = (chunkRun st l).filterMap (fun ch =>
        match ch with
        | .tok a => if trimChars a = [] then none else some (String.mk (trimChars a))
        | .lit _ => none) := by
  induction l with
  | nil =>
    intro st H hst
    cases st with
    | none => simp [parseRun, chunkRun]
    | some buf => simp [parseRun, chunkRun, filterMap_tokName_lit]
  | cons c cs ih =>
    intro st H hst
    cases st with
    | none =>
      by_cases hc : c = lbrace
      · simp only [parseRun, chunkRun, hc, if_pos]
        rw [hc] at H
        simp only [parseRun, if_pos rfl] at H
        exact ih (some []) H (by intro b hb; cases hb; simp)
      · simp only [parseRun, chunkRun, if_neg hc, List.filterMap_cons]
        simp only [parseRun, if_neg hc] at H
        exact ih none H (by intro b hb; cases hb)
    | some buf =>
      by_cases hc : c = rbrace
      · by_cases hb : buf = []
        · simp only [parseRun, chunkRun, hc, hb, if_pos, List.filterMap_cons]
          simp only [parseRun, hc, hb, if_pos] at H
          exact ih none H (by intro b hb'; cases hb')
        · simp only [parseRun, chunkRun, hc, if_pos rfl, if_neg hb, if_true,
            List.filterMap_cons]
          simp only [parseRun, hc, if_pos rfl, if_neg hb, if_true] at H
          have hlb : lbrace ∉ buf.reverse := H _ (List.mem_cons_self _ _)
          have hrb : rbrace ∉ buf.reverse := fun h => hst buf rfl (List.mem_reverse.mp h)
          have hclean : cleanName buf.reverse =
              if trimChars buf.reverse = [] then none
              else some (String.mk (trimChars buf.reverse)) := by
            rw [cleanName, stripBraces_of hlb hrb]
          have hrec := ih none (fun a ha => H a (List.mem_cons_of_mem _ ha))
            (by intro b hb'; cases hb')
          rw [hclean]
          by_cases ht : trimChars buf.reverse = []
          · simp [ht, hrec]
          · simp [ht, hrec]
      · simp only [parseRun, chunkRun, if_neg hc]
        simp only [parseRun, if_neg hc] at H
        refine ih (some (c :: buf)) H ?_
        intro b hb'
        cases hb'
        intro hr
        rcases List.mem_cons.mp hr with h | h
        · exact hc h.symm
        · exact hst buf rfl h

theorem mergeRun_fix (m : List (String × String)) (l : List Char) :
    ∀ st, (∀ a ∈ parseRun st l, trimChars a = a) →
      (∀ a ∈ parseRun st l, lookupVal m (String.mk a) = none) →
      mergeRun m st l = (match st with
        | none => l
        | some buf => lbrace :: (buf.reverse ++ l)) := by
  induction l with
  | nil =>
    intro st H1 H2
    cases st with
    | none => simp [mergeRun]
    | some buf => simp [mergeRun]
  | cons c cs ih =>
    intro st H1 H2
    cases st with
    | none =>
      by_cases hc : c = lbrace
      · simp only [mergeRun, hc, if_pos]
        rw [hc] at H1 H2
        simp only [parseRun, if_pos rfl] at H1 H2
        rw [ih (some []) H1 H2]
        simp [hc]
      · simp only [mergeRun, if_neg hc]
        simp only [parseRun, if_neg hc] at H1 H2
        rw [ih none H1 H2]
    | some buf =>
      by_cases hc : c = rbrace
      · by_cases hb : buf = []
        · simp only [mergeRun, hc, hb, if_pos]
          simp only [parseRun, hc, hb, if_pos] at H1 H2
          rw [ih none H1 H2]
          simp [hb, hc]
        · simp only [mergeRun, hc, if_pos rfl, if_neg hb]
          simp only [parseRun, hc, if_pos rfl, if_neg hb] at H1 H2
          have ht : trimChars buf.reverse = buf.reverse := H1 _ (List.mem_cons_self _ _)
          have hl : lookupVal m (String.mk buf.reverse) = none :=
            H2 _ (List.mem_cons_self _ _)
          rw [ht, hl]
          rw [ih none (fun a ha => H1 a (List.mem_cons_of_mem _ ha))
            (fun a ha => H2 a (List.mem_cons_of_mem _ ha))]
          simp [hc]
      · simp only [mergeRun, if_neg hc]
        simp only [parseRun, if_neg hc] at H1 H2
        rw [ih (some (c :: buf)) H1 H2]
        simp [List.append_assoc]

/-- C4 counterexample: a token whose capture carries surrounding whitespace
and whose name is absent from the mapping is not left unchanged: the merge
re-emits it with the whitespace inside the braces dropped. -/
theorem c4_claim_counterexample :
    mergeTemplateContent "\x7b a \x7d" [] = "\x7ba\x7d" ∧
    mergeTemplateContent "\x7b a \x7d" [] ≠ "\x7b a \x7d" := by
  constructor
  · decide
  · decide

/-- C4 (amended): the merge is a total function equal to rendering the
token decomposition chunk by chunk — a token whose trimmed name is bound in
the mapping becomes the bound value, an explicit empty string included, and
a token whose trimmed name is unbound is re-emitted as the token of the
trimmed name, hence verbatim whenever the capture carries no surrounding
whitespace; in particular a body all of whose captures are already trimmed
merges to itself under a mapping binding none of them. -/
theorem c4_merge_tokenwise (body : String) (m : List (String × String)) :
    mergeTemplateContent body m = String.mk (((chunksOf body.data).map (chunkText m)).flatten) ∧
    mergeTemplateContent "\x7ba\x7d-\x7bb\x7d" [("a", "x")] = "x-\x7bb\x7d" ∧
    mergeTemplateContent "\x7ba\x7d" [("a", "")] = "" ∧
    ((∀ a ∈ parseChars body.data, trimChars a = a) →
     (∀ a ∈ parseChars body.data, lookupVal m (String.mk a) = none) →
     mergeTemplateContent body m = body) := by
  refine ⟨?_, by decide, by decide, ?_⟩
  · rw [mergeTemplateContent, chunksOf, mergeRun_eq_chunkRun m body.data none]
  · intro H1 H2
    rw [mergeTemplateContent, mergeRun_fix m body.data none H1 H2]

/-- C4 witness: the amended theorem applied to a concrete body with trimmed
captures and an empty mapping, which merges to itself. -/
theorem c4_merge_tokenwise_witness :
    (∀ a ∈ parseChars ("\x7ba\x7d-\x7bb\x7d").data, trimChars a = a) ∧
    mergeTemplateContent "\x7ba\x7d-\x7bb\x7d" [] = "\x7ba\x7d-\x7bb\x7d" :=
  ⟨by decide, (c4_merge_tokenwise "\x7ba\x7d-\x7bb\x7d" []).2.2.2 (by decide) (by decide)⟩

/-- C5: the extractor agrees with its specification — the distinct trimmed
names of the scanned captures, in first-appearance order, empty captures
ignored — on every body without nested left braces in its captures, and on
the specification's concrete examples. -/
theorem c5_extractor_spec (body : String)
    (H : ∀ a ∈ parseChars body.data, lbrace ∉ a) :
    parsePlaceholders body = specExtract body ∧
    parsePlaceholders "hi \x7ba\x7d and \x7ba\x7d and \x7bb\x7d" = ["a", "b"] ∧
    parsePlaceholders "no fields" = [] := by
  refine ⟨?_, by decide, by decide⟩
  rw [parsePlaceholders, specExtract, parseChars, chunksOf]
  exact congrArg dedupFirst
    (namesRun_eq body.data none H (by intro b hb; cases hb))

/-- C5 witness: the characterization applied to the example body. -/
theorem c5_extractor_spec_witness :
    (∀ a ∈ parseChars ("hi \x7ba\x7d and \x7ba\x7d and \x7bb\x7d").data, lbrace ∉ a) ∧
    parsePlaceholders "hi \x7ba\x7d and \x7ba\x7d and \x7bb\x7d" =
      specExtract "hi \x7ba\x7d and \x7ba\x7d and \x7bb\x7d" :=
  ⟨by decide, (c5_extractor_spec "hi \x7ba\x7d and \x7ba\x7d and \x7bb\x7d" (by decide)).1⟩

/- Generic helpers for the collection operations. -/

theorem find?_map_pres {α : Type} (u : α → α) (pr : α → Bool)
    (hu : ∀ a, pr (u a) = pr a) :
    ∀ l : List α, (l.map u).find? pr = (l.find? pr).map u := by
  intro l
  induction l with
  | nil => rfl
  | cons a t ih =>
    by_cases hpa : pr a = true
    · rw [List.map_cons, List.find?_cons_of_pos _ (by rw [hu]; exact hpa),
        List.find?_cons_of_pos _ hpa]
      rfl
    · rw [List.map_cons, List.find?_cons_of_neg _ (by rw [hu]; exact hpa),
        List.find?_cons_of_neg _ hpa, ih]

theorem map_self_of {α : Type} (f : α → α) :
    ∀ l : List α, (∀ a ∈ l, f a = a) → l.map f = l := by
  intro l
  induction l with
  | nil => intro _; rfl
  | cons a t ih =>
    intro h
    rw [List.map_cons, h a (List.mem_cons_self _ _),
      ih (fun x hx => h x (List.mem_cons_of_mem _ hx))]

theorem find?_filter_keep {α : Type} (p q : α → Bool)
    (himp : ∀ a, p a = true → q a = true) :
    ∀ l : List α, (l.filter q).find? p = l.find? p := by
  intro l
  induction l with
  | nil => rfl
  | cons a t ih =>
    by_cases hq : q a = true
    · rw [List.filter_cons_of_pos hq]
      by_cases hp : p a = true
      · rw [List.find?_cons_of_pos _ hp, List.find?_cons_of_pos _ hp]
      · rw [List.find?_cons_of_neg _ hp, List.find?_cons_of_neg _ hp, ih]
    · rw [List.filter_cons_of_neg hq, ih,
        List.find?_cons_of_neg _ (fun hp => hq (himp a hp))]

theorem filter_self_of {α : Type} (q : α → Bool) (l : List α)
    (h : ∀ a ∈ l, q a = true) : l.filter q = l :=
  List.filter_eq_self.mpr h

/- The activity journal: prepend then truncate to the 40 most recent. -/

theorem take_append_take {α : Type} (n : Nat) (A B : List α) :
    (A ++ B.take n).take n = (A ++ B).take n := by
  rw [List.take_append_eq_append_take, List.take_append_eq_append_take, List.take_take]
  have hm : (n - A.length) ⊓ n = n - A.length := by omega
  rw [hm]

theorem foldl_appendActivity (es : List ActivityEntry) :
    ∀ (e : ActivityEntry) (start : List ActivityEntry),
      List.foldl appendActivity start (e :: es) = ((e :: es).reverse ++ start).take 40 := by
  induction es with
  | nil =>
    intro e start
    simp [appendActivity]
  | cons e' es' ih =>
    intro e start
    have h1 : List.foldl appendActivity start (e :: e' :: es') =
        List.foldl appendActivity (appendActivity start e) (e' :: es') := rfl
    rw [h1, ih e' (appendActivity start e)]
    rw [appendActivity, show (e :: start).take 40 = List.take 40 (e :: start) from rfl]
    rw [take_append_take]
    have h2 : (e' :: es').reverse ++ (e :: start) = (e :: e' :: es').reverse ++ start := by
      simp [List.append_assoc]
    rw [h2]

/-- C8: appendActivity prepends and truncates to the most recent 40, and
after appending 50 entries one at a time to any starting journal, the
journal holds exactly the 40 most recently appended entries, newest first. -/
theorem c8_journal_bound (start es : List ActivityEntry) (e : ActivityEntry)
    (h : es.length = 50) :
    appendActivity start e = (e :: start).take 40 ∧
    List.foldl appendActivity start es = es.reverse.take 40 := by
  refine ⟨rfl, ?_⟩
  cases es with
  | nil => simp at h
  | cons e0 es' =>
    rw [foldl_appendActivity es' e0 start]
    have hlen : 40 ≤ (e0 :: es').reverse.length := by
      rw [List.length_reverse]
      omega
    rw [List.take_append_of_le_length hlen]

/-- C8 witness: 50 concrete entries appended one at a time to an empty
journal leave exactly the 40 most recent, newest first. -/
theorem c8_journal_bound_witness :
    (List.replicate 50 sampleEntry).length = 50 ∧
    List.foldl appendActivity [] (List.replicate 50 sampleEntry) =
      (List.replicate 50 sampleEntry).reverse.take 40 :=
  ⟨by decide, (c8_journal_bound [] (List.replicate 50 sampleEntry) sampleEntry (by decide)).2⟩

/-- C10 counterexample: on a workspace whose journal already holds 40
entries, deleting an id with no matching post leaves the posts unchanged but
the journal does not grow by one entry — it stays at the 40-entry cap. -/
theorem c10_claim_counterexample :
    findPost c10state "x" = none ∧
    (deletePost "e" "ts" "x" c10state).posts = c10state.posts ∧
    (deletePost "e" "ts" "x" c10state).activity.length ≠ c10state.activity.length + 1 := by
  refine ⟨by decide, by decide, by decide⟩

/-- C10 (amended): deletePost unconditionally prepends the generic
"Post removed" entry — it is the journal head even when no post matches —
and the journal length becomes the old length plus one, capped at 40; when
no post matches the id the posts collection is unchanged. -/
theorem c10_delete_always_logs (s : AppState) (entryId now pid : String) :
    (deletePost entryId now pid s).activity.head? =
      some { id := entryId, timestamp := now, summary := "Post removed",
             detail := some "Cleared from queue", category := .post } ∧
    (deletePost entryId now pid s).activity.length = min 40 (s.activity.length + 1) ∧
    (findPost s pid = none → (deletePost entryId now pid s).posts = s.posts) := by
  refine ⟨?_, ?_, ?_⟩
  · rw [deletePost]
    show ((_ :: s.activity).take 40).head? = _
    rw [List.take_succ_cons]
    rfl
  · rw [deletePost]
    show ((_ :: s.activity).take 40).length = _
    rw [List.length_take]
    rfl
  · intro hnone
    rw [deletePost]
    show s.posts.filter _ = s.posts
    refine filter_self_of _ _ ?_
    intro p hp
    have := List.find?_eq_none.mp hnone p hp
    simpa using this

/-- C10 witness: the amended behavior at a concrete workspace with no posts
and an empty journal. -/
theorem c10_delete_always_logs_witness :
    findPost c1state "zz" = none ∧
    (deletePost "e" "ts" "zz" c1state).posts = c1state.posts :=
  ⟨by decide, (c10_delete_always_logs c1state "e" "ts" "zz").2.2 (by decide)⟩

/- Status-transition handlers: shared update-shape lemmas. -/

theorem setPostStatus_missing (now pid : String) (st : PostStatus) (s : AppState)
    (h : findPost s pid = none) : setPostStatus now pid st s = s := by
  rw [setPostStatus]
  have hmap : s.posts.map (fun post =>
      if post.id = pid then
        match st with
        | .approved => { post with status := st, approvedAt := some now }
        | .published => { post with status := st, publishedAt := some now }
        | _ => { post with status := st }
      else post) = s.posts := by
    apply map_self_of
    intro p hp
    have hne := List.find?_eq_none.mp h p hp
    rw [if_neg (by simpa using hne)]
  rw [hmap]

theorem findPost_map_upd (s : AppState) (pid : String)
    (u : ScheduledPost → ScheduledPost)
    (hu : ∀ a, decide ((u a).id = pid) = decide (a.id = pid)) (e : ActivityEntry) :
    findPost { s with posts := s.posts.map u, activity := appendActivity s.activity e } pid =
      (findPost s pid).map u ∧
    ({ s with posts := s.posts.map u,
              activity := appendActivity s.activity e } : AppState).activity.head? = some e := by
  constructor
  · exact find?_map_pres u _ hu s.posts
  · show ((e :: s.activity).take 40).head? = some e
    rw [List.take_succ_cons]
    rfl

/-- C1 counterexample: on a workspace holding a published post, requesting
approve is not a no-op — the post drops back to approved and an activity
entry is appended. -/
theorem c1_claim_counterexample :
    postStatusOf c1state "p1" = some .published ∧
    postStatusOf (handleApprove "ts" "e" "p1" c1state) "p1" = some .approved ∧
    (handleApprove "ts" "e" "p1" c1state).activity.length = c1state.activity.length + 1 := by
  refine ⟨by decide, by decide, by decide⟩

/-- C1 (amended): the transition handlers never consult the current status —
the guards live only in the UI, which renders a transition button only for
the statuses that permit it.  When no post matches the id, each handler is a
no-op on the whole workspace, with no activity appended; when a post
matches, the requested status is applied unconditionally, whatever the
current status, and one activity entry is prepended. -/
theorem c1_transition_guards (s : AppState) (fmt : String → String)
    (now entryId pid : String) :
    (findPost s pid = none →
      handleApprove now entryId pid s = s ∧
      handlePublish now entryId pid s = s ∧
      handleSchedule fmt now entryId pid s = s) ∧
    (∀ p, findPost s pid = some p →
      postStatusOf (handleApprove now entryId pid s) pid = some .approved ∧
      postStatusOf (handlePublish now entryId pid s) pid = some .published ∧
      postStatusOf (handleSchedule fmt now entryId pid s) pid = some .scheduled ∧
      (handleApprove now entryId pid s).activity.head? = some
        { id := entryId, timestamp := now, summary := "Approved: " ++ p.templateName,
          detail := some ("Ready for " ++ joinPlatforms p.platforms), category := .post } ∧
      (handlePublish now entryId pid s).activity.head? = some
        { id := entryId, timestamp := now, summary := "Published: " ++ p.templateName,
          detail := some ("Shipped to " ++ joinPlatforms p.platforms), category := .post } ∧
      (handleSchedule fmt now entryId pid s).activity.head? = some
        { id := entryId, timestamp := now, summary := "Scheduled: " ++ p.templateName,
          detail := p.scheduledAt.map (fun d => "Publishes " ++ fmt d),
          category := .post }) := by
  constructor
  · intro hnone
    refine ⟨?_, ?_, ?_⟩
    · rw [handleApprove, hnone]
      exact setPostStatus_missing now pid .approved s hnone
    · rw [handlePublish, hnone]
      exact setPostStatus_missing now pid .published s hnone
    · rw [handleSchedule, hnone]
      exact setPostStatus_missing now pid .scheduled s hnone
  · intro p hp
    have hp' : s.posts.find? (fun item => item.id = pid) = some p := hp
    have hpid : p.id = pid := by
      have hpd := List.find?_some hp'
      simpa using hpd
    have huA : ∀ a : ScheduledPost,
        decide (((if a.id = pid then
          { a with status := PostStatus.approved, approvedAt := some now }
          else a)).id = pid) = decide (a.id = pid) := by
      intro a
      by_cases ha : a.id = pid
      · rw [if_pos ha]
      · rw [if_neg ha]
    have huP : ∀ a : ScheduledPost,
        decide (((if a.id = pid then
          { a with status := PostStatus.published, publishedAt := some now }
          else a)).id = pid) = decide (a.id = pid) := by
      intro a
      by_cases ha : a.id = pid
      · rw [if_pos ha]
      · rw [if_neg ha]
    have huS : ∀ a : ScheduledPost,
        decide (((if a.id = pid then { a with status := PostStatus.scheduled }
          else a)).id = pid) = decide (a.id = pid) := by
      intro a
      by_cases ha : a.id = pid
      · rw [if_pos ha]
      · rw [if_neg ha]
    have hA := findPost_map_upd s pid
      (fun a => if a.id = pid then
        { a with status := PostStatus.approved, approvedAt := some now } else a) huA
      { id := entryId, timestamp := now, summary := "Approved: " ++ p.templateName,
        detail := some ("Ready for " ++ joinPlatforms p.platforms), category := .post }
    have hP := findPost_map_upd s pid
      (fun a => if a.id = pid then
        { a with status := PostStatus.published, publishedAt := some now } else a) huP
      { id := entryId, timestamp := now, summary := "Published: " ++ p.templateName,
        detail := some ("Shipped to " ++ joinPlatforms p.platforms), category := .post }
    have hS := findPost_map_upd s pid
      (fun a => if a.id = pid then { a with status := PostStatus.scheduled } else a) huS
      { id := entryId, timestamp := now, summary := "Scheduled: " ++ p.templateName,
        detail := p.scheduledAt.map (fun d => "Publishes " ++ fmt d), category := .post }
    refine ⟨?_, ?_, ?_, ?_, ?_, ?_⟩
    · rw [postStatusOf, handleApprove, hp, hA.1, hp]
      simp [if_pos hpid]
    · rw [postStatusOf, handlePublish, hp, hP.1, hp]
      simp [if_pos hpid]
    · rw [postStatusOf, handleSchedule, hp, hS.1, hp]
      simp [if_pos hpid]
    · rw [handleApprove, hp]
      exact hA.2
    · rw [handlePublish, hp]
      exact hP.2
    · rw [handleSchedule, hp]
      exact hS.2

/-- C1 witness: the amended theorem at a concrete workspace — a missing id
is a no-op, and an existing published post is still re-approved. -/
theorem c1_transition_guards_witness :
    (findPost c1state "zz" = none ∧ handleApprove "ts" "e" "zz" c1state = c1state) ∧
    (findPost c1state "p1" = some (samplePost "p1" "t1" .published none) ∧
      postStatusOf (handleApprove "ts" "e" "p1" c1state) "p1" = some .approved) :=
  ⟨⟨by decide,
    ((c1_transition_guards c1state (fun d => d) "ts" "e" "zz").1 (by decide)).1⟩,
   ⟨by decide,
    ((c1_transition_guards c1state (fun d => d) "ts" "e" "p1").2
      (samplePost "p1" "t1" .published none) (by decide)).1⟩⟩

/- Frozen-snapshot lemmas. -/

theorem forall₂_frozen_map (u : ScheduledPost → ScheduledPost)
    (h : ∀ p, frozenEq p (u p)) :
    ∀ l : List ScheduledPost, List.Forall₂ frozenEq l (l.map u) := by
  intro l
  induction l with
  | nil => exact List.Forall₂.nil
  | cons a t ih => exact List.Forall₂.cons (h a) ih

theorem setPostStatus_frozen (now pid : String) (st : PostStatus) (s : AppState) :
    List.Forall₂ frozenEq s.posts (setPostStatus now pid st s).posts := by
  refine forall₂_frozen_map _ ?_ s.posts
  intro p
  by_cases ha : p.id = pid
  · rw [if_pos ha]
    cases st <;> exact ⟨rfl, rfl, rfl, rfl⟩
  · rw [if_neg ha]
    exact ⟨rfl, rfl, rfl, rfl⟩

/-- C9: deleting a template leaves the posts collection entirely unchanged,
and no status-transition operation changes any post's templateName, values,
finalMessage, or createdAt — each post stays the frozen snapshot taken at
composition time. -/
theorem c9_no_cascade_frozen_posts (s : AppState) (fmt : String → String)
    (entryId now tid pid : String) (st : PostStatus) :
    (removeTemplate entryId now tid s).posts = s.posts ∧
    List.Forall₂ frozenEq s.posts (setPostStatus now pid st s).posts ∧
    List.Forall₂ frozenEq s.posts (handleApprove now entryId pid s).posts ∧
    List.Forall₂ frozenEq s.posts (handlePublish now entryId pid s).posts ∧
    List.Forall₂ frozenEq s.posts (handleSchedule fmt now entryId pid s).posts := by
  refine ⟨rfl, setPostStatus_frozen now pid st s, ?_, ?_, ?_⟩
  · cases hp : findPost s pid with
    | none =>
      rw [handleApprove, hp]
      exact setPostStatus_frozen now pid .approved s
    | some p =>
      rw [handleApprove, hp]
      refine forall₂_frozen_map _ ?_ s.posts
      intro q
      by_cases ha : q.id = pid
      · rw [if_pos ha]; exact ⟨rfl, rfl, rfl, rfl⟩
      · rw [if_neg ha]; exact ⟨rfl, rfl, rfl, rfl⟩
  · cases hp : findPost s pid with
    | none =>
      rw [handlePublish, hp]
      exact setPostStatus_frozen now pid .published s
    | some p =>
      rw [handlePublish, hp]
      refine forall₂_frozen_map _ ?_ s.posts
      intro q
      by_cases ha : q.id = pid
      · rw [if_pos ha]; exact ⟨rfl, rfl, rfl, rfl⟩
      · rw [if_neg ha]; exact ⟨rfl, rfl, rfl, rfl⟩
  · cases hp : findPost s pid with
    | none =>
      rw [handleSchedule, hp]
      exact setPostStatus_frozen now pid .scheduled s
    | some p =>
      rw [handleSchedule, hp]
      refine forall₂_frozen_map _ ?_ s.posts
      intro q
      by_cases ha : q.id = pid
      · rw [if_pos ha]; exact ⟨rfl, rfl, rfl, rfl⟩
      · rw [if_neg ha]; exact ⟨rfl, rfl, rfl, rfl⟩

/- Usage-count accounting. -/

theorem usageOf_addPost (entryId now : String) (post : ScheduledPost) (s : AppState)
    (tid : String) :
    usageOf (addPost entryId now post s) tid =
      if post.templateId = tid then (usageOf s tid).map (· + 1) else usageOf s tid := by
  have hu : ∀ t : Template,
      decide ((if t.id = post.templateId then
        { t with usageCount := t.usageCount + 1 } else t).id = tid) = decide (t.id = tid) := by
    intro t
    by_cases ha : t.id = post.templateId
    · rw [if_pos ha]
    · rw [if_neg ha]
  have hfind := find?_map_pres
    (fun t : Template => if t.id = post.templateId then
      { t with usageCount := t.usageCount + 1 } else t)
    (fun t : Template => t.id = tid) hu s.templates
  have haddT : (addPost entryId now post s).templates = s.templates.map
      (fun t : Template => if t.id = post.templateId then
        { t with usageCount := t.usageCount + 1 } else t) := rfl
  rw [usageOf, findTemplate, haddT, hfind, usageOf, findTemplate]
  cases hf : s.templates.find? (fun t : Template => t.id = tid) with
  | none =>
    by_cases hpt : post.templateId = tid
    · rw [if_pos hpt]
      rfl
    · rw [if_neg hpt]
      rfl
  | some t =>
    have ht : t.id = tid := by
      have := List.find?_some hf
      simpa using this
    by_cases hpt : post.templateId = tid
    · rw [if_pos hpt]
      show some ((if t.id = post.templateId then
        { t with usageCount := t.usageCount + 1 } else t).usageCount) = some (t.usageCount + 1)
      rw [if_pos (by rw [ht, hpt])]
    · rw [if_neg hpt]
      show some ((if t.id = post.templateId then
        { t with usageCount := t.usageCount + 1 } else t).usageCount) = some t.usageCount
      rw [if_neg (by rw [ht]; exact fun h => hpt h.symm)]

theorem usageOf_upsertTemplate (entryId : String) (tpl : Template) (s : AppState)
    (tid : String) (hne : ¬ tpl.id = tid) :
    usageOf (upsertTemplate entryId tpl s) tid = usageOf s tid := by
  have hu : ∀ t : Template,
      decide ((if t.id = tpl.id then tpl else t).id = tid) = decide (t.id = tid) := by
    intro t
    by_cases ha : t.id = tpl.id
    · rw [if_pos ha, ha]
    · rw [if_neg ha]
  have hupT : (upsertTemplate entryId tpl s).templates =
      if s.templates.any (fun item => item.id = tpl.id) then
        s.templates.map (fun t : Template => if t.id = tpl.id then tpl else t)
      else tpl :: s.templates := rfl
  rw [usageOf, findTemplate, hupT]
  by_cases hk : s.templates.any (fun item => item.id = tpl.id) = true
  · rw [if_pos hk]
    rw [find?_map_pres (fun t : Template => if t.id = tpl.id then tpl else t)
      (fun t : Template => t.id = tid) hu s.templates]
    rw [usageOf, findTemplate]
    cases hf : s.templates.find? (fun t : Template => t.id = tid) with
    | none => rfl
    | some t =>
      have ht : t.id = tid := by
        have := List.find?_some hf
        simpa using this
      show some ((if t.id = tpl.id then tpl else t).usageCount) = some t.usageCount
      rw [if_neg (by rw [ht]; exact fun h => hne h.symm)]
  · rw [if_neg hk]
    rw [List.find?_cons_of_neg _ (by simpa using hne)]
    rfl

theorem usageOf_removeTemplate (entryId now rid : String) (s : AppState)
    (tid : String) (hne : ¬ rid = tid) :
    usageOf (removeTemplate entryId now rid s) tid = usageOf s tid := by
  have hremT : (removeTemplate entryId now rid s).templates =
      s.templates.filter (fun template => !(template.id = rid)) := rfl
  rw [usageOf, findTemplate, hremT]
  rw [find?_filter_keep (fun t : Template => t.id = tid)
    (fun template : Template => !(template.id = rid)) ?_ s.templates]
  · rfl
  · intro t hp
    have ht : t.id = tid := by simpa using hp
    simp [ht]
    exact fun h => hne h.symm

/-- C6: over any sequence of registry operations in which every template
save and delete targets a different template, the usage count of a template
rises by exactly the number of posts composed from it — one per composition,
with every other operation leaving it unchanged. -/
theorem c6_usage_counter (tid : String) (ops : List TOp) :
    ∀ s : AppState, (∀ op ∈ ops, sparesTid tid op = true) →
      usageOf (applyTOps s ops) tid =
        (usageOf s tid).map (· + ops.countP (composesTid tid)) := by
  induction ops with
  | nil =>
    intro s _
    show usageOf s tid = (usageOf s tid).map (· + List.countP (composesTid tid) [])
    cases usageOf s tid <;> simp
  | cons op ops' ih =>
    intro s H
    show usageOf (applyTOps (applyTOp s op) ops') tid = _
    rw [ih (applyTOp s op) (fun o ho => H o (List.mem_cons_of_mem _ ho))]
    cases op with
    | compose e n post =>
      rw [show applyTOp s (.compose e n post) = addPost e n post s from rfl,
        usageOf_addPost]
      by_cases hpt : post.templateId = tid
      · rw [if_pos hpt]
        have hcnt : (TOp.compose e n post :: ops').countP (composesTid tid) =
            ops'.countP (composesTid tid) + 1 := by
          rw [List.countP_cons]
          simp [composesTid, hpt]
        rw [hcnt]
        cases usageOf s tid with
        | none => rfl
        | some u =>
          show some (u + 1 + ops'.countP (composesTid tid)) = some (u + _)
          congr 1
          omega
      · rw [if_neg hpt]
        have hcnt : (TOp.compose e n post :: ops').countP (composesTid tid) =
            ops'.countP (composesTid tid) := by
          rw [List.countP_cons]
          simp [composesTid, hpt]
        rw [hcnt]
    | save e tpl =>
      have hs := H _ (List.mem_cons_self _ _)
      have hne : ¬ tpl.id = tid := by simpa [sparesTid] using hs
      rw [show applyTOp s (.save e tpl) = upsertTemplate e tpl s from rfl,
        usageOf_upsertTemplate e tpl s tid hne]
      have hcnt : (TOp.save e tpl :: ops').countP (composesTid tid) =
          ops'.countP (composesTid tid) := by
        rw [List.countP_cons]
        simp [composesTid]
      rw [hcnt]
    | removeT e n rid =>
      have hs := H _ (List.mem_cons_self _ _)
      have hne : ¬ rid = tid := by simpa [sparesTid] using hs
      rw [show applyTOp s (.removeT e n rid) = removeTemplate e n rid s from rfl,
        usageOf_removeTemplate e n rid s tid hne]
      have hcnt : (TOp.removeT e n rid :: ops').countP (composesTid tid) =
          ops'.countP (composesTid tid) := by
        rw [List.countP_cons]
        simp [composesTid]
      rw [hcnt]

/-- C6 witness: two compositions from template t1, interleaved with a save
and a delete of template t2 and a composition from a third template, raise
the usage count of t1 from 3 to 5 exactly. -/
theorem c6_usage_counter_witness :
    (∀ op ∈ c6ops, sparesTid "t1" op = true) ∧
    usageOf (applyTOps c6state c6ops) "t1" =
      (usageOf c6state "t1").map (· + c6ops.countP (composesTid "t1")) ∧
    usageOf (applyTOps c6state c6ops) "t1" = some 5 :=
  ⟨by decide, c6_usage_counter "t1" c6ops c6state (by decide), by decide⟩

/-- C7: saving the form over an existing template replaces exactly its name,
description, platforms, content, tags and updatedAt, while createdAt and
usageCount are carried over from the stored entry and the id is kept. -/
theorem c7_update_preserves_counters (s : AppState) (form : TemplateFormState)
    (now freshId entryId fid : String) (t : Template)
    (hid : form.id = some fid)
    (hfound : findTemplate s fid = some t)
    (hname : ¬ strTrim form.name = "")
    (hcontent : ¬ strTrim form.content = "") :
    findTemplate (handleSubmit now freshId entryId form s) fid = some
      { id := fid,
        name := strTrim form.name,
        description := if strTrim form.description = "" then "Untitled template"
                       else strTrim form.description,
        platforms := form.platforms,
        content := strTrim form.content,
        tags := ((splitComma form.tags).map strTrim).filter (fun x => x ≠ ""),
        createdAt := t.createdAt,
        updatedAt := now,
        usageCount := t.usageCount } := by
  have hfound' : s.templates.find? (fun tpl => tpl.id = fid) = some t := hfound
  have htid : t.id = fid := by
    have := List.find?_some hfound'
    simpa using this
  rw [handleSubmit, if_neg (not_or.mpr ⟨hname, hcontent⟩), hid]
  set payload : Template :=
    { id := (some fid).getD freshId,
      name := strTrim form.name,
      description := if strTrim form.description = "" then "Untitled template"
                     else strTrim form.description,
      platforms := form.platforms,
      content := strTrim form.content,
      tags := ((splitComma form.tags).map strTrim).filter (fun x => x ≠ ""),
      createdAt := ((s.templates.find? (fun tpl => tpl.id = fid)).map (·.createdAt)).getD now,
      updatedAt := now,
      usageCount :=
        ((s.templates.find? (fun tpl => tpl.id = fid)).map (·.usageCount)).getD 0 }
    with hpayload
  have hpid : payload.id = fid := rfl
  have hany : s.templates.any (fun item => item.id = payload.id) = true := by
    rw [List.any_eq_true]
    refine ⟨t, List.mem_of_find?_eq_some hfound', ?_⟩
    rw [hpid]
    simpa using htid
  have hu : ∀ a : Template,
      decide ((if a.id = payload.id then payload else a).id = fid) = decide (a.id = fid) := by
    intro a
    by_cases ha : a.id = payload.id
    · rw [if_pos ha, hpid, ha.trans hpid]
    · rw [if_neg ha]
  have hupT : (upsertTemplate entryId payload s).templates =
      if s.templates.any (fun item => item.id = payload.id) then
        s.templates.map (fun a : Template => if a.id = payload.id then payload else a)
      else payload :: s.templates := rfl
  rw [findTemplate, hupT, if_pos hany]
  rw [find?_map_pres (fun a : Template => if a.id = payload.id then payload else a)
    (fun a : Template => a.id = fid) hu s.templates]
  rw [show s.templates.find? (fun a : Template => a.id = fid) = some t from hfound']
  show some (if t.id = payload.id then payload else t) = _
  rw [if_pos (by rw [htid, hpid])]
  rw [hpayload, hfound']
  rfl

/-- C7 witness: updating the seeded template keeps createdAt and usageCount
while the edited fields change. -/
theorem c7_update_preserves_counters_witness :
    findTemplate c7state "t1" = some (sampleTemplate "t1" 3) ∧
    findTemplate (handleSubmit "2024-06-01T00:00:00Z" "f" "e" c7form c7state) "t1" = some
      { id := "t1", name := "Renamed", description := "Untitled template",
        platforms := [.linkedin], content := "\x7bhook\x7d!", tags := ["#a", "#b"],
        createdAt := "2024-01-01T00:00:00Z", updatedAt := "2024-06-01T00:00:00Z",
        usageCount := 3 } := by
  refine ⟨by decide, ?_⟩
  have h := c7_update_preserves_counters c7state c7form "2024-06-01T00:00:00Z" "f" "e" "t1"
    (sampleTemplate "t1" 3) (by decide) (by decide) (by decide) (by decide)
  rw [h]
  decide

/- Workflow monotonicity under the UI guard discipline. -/

theorem mem_eq_find_of_nodup :
    ∀ (l : List ScheduledPost), (l.map (·.id)).Nodup →
      ∀ p q, p ∈ l → l.find? (fun item => item.id = p.id) = some q → p = q := by
  intro l
  induction l with
  | nil => intro _ p q hp; cases hp
  | cons a rest ih =>
    intro hw p q hp hq
    rw [List.map_cons, List.nodup_cons] at hw
    rcases List.mem_cons.mp hp with he | hm
    · subst he
      rw [List.find?_cons_of_pos _ (by simp)] at hq
      exact Option.some.inj hq
    · by_cases hid : a.id = p.id
      · exact absurd (by rw [hid]; exact List.mem_map_of_mem _ hm) hw.1
      · rw [List.find?_cons_of_neg _ (by simpa using hid)] at hq
        exact ih hw.2 p q hm hq

theorem postsWf_map_pres (u : ScheduledPost → ScheduledPost)
    (hu : ∀ a, (u a).id = a.id) (l : List ScheduledPost)
    (hw : (l.map (·.id)).Nodup) : ((l.map u).map (·.id)).Nodup := by
  rw [List.map_map]
  have hcg : List.map ((fun x : ScheduledPost => x.id) ∘ u) l =
      List.map (fun x : ScheduledPost => x.id) l :=
    List.map_congr_left (fun a _ => hu a)
  rw [hcg]
  exact hw

theorem gstep_mono {s t : AppState} (h : GStep s t) :
    ∀ pid p, findPost s pid = some p →
      ∃ q, findPost t pid = some q ∧ statusRank p.status ≤ statusRank q.status := by
  cases h with
  | approve now entryId opid hg =>
    intro pid p hp
    cases hf0 : findPost s opid with
    | none => rw [postStatusOf, hf0] at hg; simp at hg
    | some p0 =>
      rw [postStatusOf, hf0] at hg
      have hs0 : p0.status = .pending := by simpa using hg
      rw [handleApprove, hf0]
      rw [(findPost_map_upd s pid
        (fun item => if item.id = opid then { item with status := PostStatus.approved, approvedAt := some now } else item)
        (fun a => by
          by_cases ha : a.id = opid
          · simp only [if_pos ha]
          · simp only [if_neg ha])
        { id := entryId, timestamp := now, summary := "Approved: " ++ p0.templateName,
          detail := some ("Ready for " ++ joinPlatforms p0.platforms),
          category := .post }).1]
      rw [hp]
      refine ⟨_, rfl, ?_⟩
      by_cases hpo : p.id = opid
      · have hpid : p.id = pid := by
          have := List.find?_some (show s.posts.find? (fun item => item.id = pid) = some p from hp)
          simpa using this
        have hpp : findPost s opid = some p := by
          rw [← hpo, hpid] at hf0 ⊢
          exact hp
        rw [hf0] at hpp
        have hpe : p = p0 := (Option.some.inj hpp).symm
        simp only [if_pos hpo]
        show statusRank p.status ≤ statusRank PostStatus.approved
        rw [hpe, hs0]
        decide
      · simp only [if_neg hpo]
        exact le_refl _
  | sched fmt now entryId opid hg h2 =>
    intro pid p hp
    cases hf0 : findPost s opid with
    | none => rw [postStatusOf, hf0] at hg; simp at hg
    | some p0 =>
      rw [postStatusOf, hf0] at hg
      have hs0 : p0.status = .approved := by simpa using hg
      rw [handleSchedule, hf0]
      rw [(findPost_map_upd s pid
        (fun item => if item.id = opid then { item with status := PostStatus.scheduled } else item)
        (fun a => by
          by_cases ha : a.id = opid
          · simp only [if_pos ha]
          · simp only [if_neg ha])
        { id := entryId, timestamp := now, summary := "Scheduled: " ++ p0.templateName,
          detail := p0.scheduledAt.map (fun d => "Publishes " ++ fmt d),
          category := .post }).1]
      rw [hp]
      refine ⟨_, rfl, ?_⟩
      by_cases hpo : p.id = opid
      · have hpid : p.id = pid := by
          have := List.find?_some (show s.posts.find? (fun item => item.id = pid) = some p from hp)
          simpa using this
        have hpp : findPost s opid = some p := by
          rw [← hpo, hpid] at hf0 ⊢
          exact hp
        rw [hf0] at hpp
        have hpe : p = p0 := (Option.some.inj hpp).symm
        simp only [if_pos hpo]
        show statusRank p.status ≤ statusRank PostStatus.scheduled
        rw [hpe, hs0]
        decide
      · simp only [if_neg hpo]
        exact le_refl _
  | publish now entryId opid hg =>
    intro pid p hp
    have hf0x : ∃ p0, findPost s opid = some p0 := by
      rcases hg with hg | hg <;>
        (rw [postStatusOf] at hg
         cases hfx : findPost s opid
         · rw [hfx] at hg; simp at hg
         · exact ⟨_, rfl⟩)
    obtain ⟨p0, hf0⟩ := hf0x
    rw [handlePublish, hf0]
    rw [(findPost_map_upd s pid
      (fun item => if item.id = opid then { item with status := PostStatus.published, publishedAt := some now } else item)
      (fun a => by
        by_cases ha : a.id = opid
        · simp only [if_pos ha]
        · simp only [if_neg ha])
      { id := entryId, timestamp := now, summary := "Published: " ++ p0.templateName,
        detail := some ("Shipped to " ++ joinPlatforms p0.platforms),
        category := .post }).1]
    rw [hp]
    refine ⟨_, rfl, ?_⟩
    by_cases hpo : p.id = opid
    · simp only [if_pos hpo]
      show statusRank p.status ≤ statusRank PostStatus.published
      cases p.status <;> decide
    · simp only [if_neg hpo]
      exact le_refl _
  | compose entryId now post hfresh hpend =>
    intro pid p hp
    have hT : findPost (addPost entryId now post s) pid =
        (post :: s.posts).find? (fun item => item.id = pid) := rfl
    rw [hT]
    have hne : ¬ ((fun item : ScheduledPost => decide (item.id = pid)) post = true) := by
      intro hd
      have hpp : post.id = pid := by simpa using hd
      rw [hpp] at hfresh
      rw [hfresh] at hp
      cases hp
    have hcons : List.find? (fun item : ScheduledPost => item.id = pid) (post :: s.posts) =
        List.find? (fun item : ScheduledPost => item.id = pid) s.posts :=
      List.find?_cons_of_neg _ hne
    rw [hcons]
    exact ⟨p, hp, le_refl _⟩
  | save entryId tpl =>
    intro pid p hp
    exact ⟨p, hp, le_refl _⟩
  | removeT entryId now tid =>
    intro pid p hp
    exact ⟨p, hp, le_refl _⟩

theorem setPostStatus_wf (now pid : String) (st : PostStatus) (s : AppState)
    (hw : postsWf s) : postsWf (setPostStatus now pid st s) := by
  refine postsWf_map_pres (fun post => if post.id = pid then
    (match st with
     | .approved => { post with status := st, approvedAt := some now }
     | .published => { post with status := st, publishedAt := some now }
     | _ => { post with status := st }) else post) ?_ s.posts hw
  intro a
  by_cases ha : a.id = pid
  · simp only [if_pos ha]
    cases st <;> rfl
  · simp only [if_neg ha]

theorem gstep_wf {s t : AppState} (h : GStep s t) (hw : postsWf s) : postsWf t := by
  cases h with
  | approve now entryId opid hg =>
    cases hf0 : findPost s opid with
    | none => rw [postStatusOf, hf0] at hg; simp at hg
    | some p0 =>
      rw [handleApprove, hf0]
      refine postsWf_map_pres
        (fun item => if item.id = opid then { item with status := PostStatus.approved, approvedAt := some now } else item)
        ?_ s.posts hw
      intro a
      by_cases ha : a.id = opid
      · simp only [if_pos ha]
      · simp only [if_neg ha]
  | sched fmt now entryId opid hg h2 =>
    cases hf0 : findPost s opid with
    | none => rw [postStatusOf, hf0] at hg; simp at hg
    | some p0 =>
      rw [handleSchedule, hf0]
      refine postsWf_map_pres
        (fun item => if item.id = opid then { item with status := PostStatus.scheduled } else item)
        ?_ s.posts hw
      intro a
      by_cases ha : a.id = opid
      · simp only [if_pos ha]
      · simp only [if_neg ha]
  | publish now entryId opid hg =>
    have hf0x : ∃ p0, findPost s opid = some p0 := by
      rcases hg with hg | hg <;>
        (rw [postStatusOf] at hg
         cases hfx : findPost s opid
         · rw [hfx] at hg; simp at hg
         · exact ⟨_, rfl⟩)
    obtain ⟨p0, hf0⟩ := hf0x
    rw [handlePublish, hf0]
    refine postsWf_map_pres
      (fun item => if item.id = opid then { item with status := PostStatus.published, publishedAt := some now } else item)
      ?_ s.posts hw
    intro a
    by_cases ha : a.id = opid
    · simp only [if_pos ha]
    · simp only [if_neg ha]
  | compose entryId now post hfresh hpend =>
    show ((post :: s.posts).map (·.id)).Nodup
    rw [List.map_cons, List.nodup_cons]
    refine ⟨?_, hw⟩
    intro hmem
    obtain ⟨q, hq, hqe⟩ := List.mem_map.mp hmem
    have := List.find?_eq_none.mp hfresh q hq
    simp at this
    exact this hqe
  | save entryId tpl => exact hw
  | removeT entryId now tid => exact hw

theorem gstep_schedInv {s t : AppState} (h : GStep s t) (hw : postsWf s)
    (hi : schedInv s) : schedInv t := by
  cases h with
  | approve now entryId opid hg =>
    cases hf0 : findPost s opid with
    | none => rw [postStatusOf, hf0] at hg; simp at hg
    | some p0 =>
      rw [handleApprove, hf0]
      intro p' hp' hsc
      obtain ⟨p, hpmem, hpe⟩ := List.mem_map.mp hp'
      subst hpe
      by_cases hid : p.id = opid
      · simp only [if_pos hid] at hsc
        exact absurd hsc (by decide)
      · simp only [if_neg hid] at hsc ⊢
        exact hi p hpmem hsc
  | sched fmt now entryId opid hg h2 =>
    cases hf0 : findPost s opid with
    | none => rw [postStatusOf, hf0] at hg; simp at hg
    | some p0 =>
      obtain ⟨pz, hfz, hzs⟩ := h2
      have hz : pz = p0 := by
        rw [hf0] at hfz
        exact (Option.some.inj hfz).symm
      rw [handleSchedule, hf0]
      intro p' hp' hsc
      obtain ⟨p, hpmem, hpe⟩ := List.mem_map.mp hp'
      subst hpe
      by_cases hid : p.id = opid
      · have hfind : s.posts.find? (fun item => item.id = p.id) = some p0 := by
          rw [hid]
          exact hf0
        have hpp0 : p = p0 := mem_eq_find_of_nodup s.posts hw p p0 hpmem hfind
        simp only [if_pos hid]
        show p.scheduledAt.isSome
        rw [hpp0, ← hz]
        exact hzs
      · simp only [if_neg hid] at hsc ⊢
        exact hi p hpmem hsc
  | publish now entryId opid hg =>
    have hf0x : ∃ p0, findPost s opid = some p0 := by
      rcases hg with hg | hg <;>
        (rw [postStatusOf] at hg
         cases hfx : findPost s opid
         · rw [hfx] at hg; simp at hg
         · exact ⟨_, rfl⟩)
    obtain ⟨p0, hf0⟩ := hf0x
    rw [handlePublish, hf0]
    intro p' hp' hsc
    obtain ⟨p, hpmem, hpe⟩ := List.mem_map.mp hp'
    subst hpe
    by_cases hid : p.id = opid
    · simp only [if_pos hid] at hsc
      exact absurd hsc (by decide)
    · simp only [if_neg hid] at hsc ⊢
      exact hi p hpmem hsc
  | compose entryId now post hfresh hpend =>
    intro p' hp' hsc
    rcases List.mem_cons.mp hp' with he | hm
    · subst he
      rw [hpend] at hsc
      exact absurd hsc (by decide)
    · exact hi p' hm hsc
  | save entryId tpl => exact hi
  | removeT entryId now tid => exact hi

/-- C2 counterexample: starting from the seed template, composing a post,
approving, publishing, and then invoking approve again produces the status
sequence pending, approved, published, approved — the last step decreases
the status, so the sequence is not non-decreasing under the workflow
order. -/
theorem c2_claim_counterexample :
    postStatusOf c2state1 "p1" = some .pending ∧
    postStatusOf c2state2 "p1" = some .approved ∧
    postStatusOf c2state3 "p1" = some .published ∧
    postStatusOf c2state4 "p1" = some .approved ∧
    statusRank .approved < statusRank .published := by
  refine ⟨by decide, by decide, by decide, by decide, by decide⟩

/-- C2 (amended): along any chain of guarded operations — approve requested
only from pending, mark-scheduled only from approved with a schedule set,
publish only from approved or scheduled, composition with a fresh id, and
the template operations (post deletion ends a post's lifetime and is not a
step of that post) — the status of every post that stays present is
non-decreasing under pending < approved < scheduled < published; moreover,
when post ids are distinct and every scheduled post has a schedule set, both
facts are preserved, so a post is never scheduled without scheduledAt. -/
theorem c2_guarded_status_monotone (s s' : AppState)
    (h : Relation.ReflTransGen GStep s s') :
    (∀ pid p, findPost s pid = some p →
      ∃ q, findPost s' pid = some q ∧ statusRank p.status ≤ statusRank q.status) ∧
    (postsWf s → schedInv s → postsWf s' ∧ schedInv s') := by
  induction h with
  | refl => exact ⟨fun pid p hp => ⟨p, hp, le_refl _⟩, fun hw hi => ⟨hw, hi⟩⟩
  | tail hst step ih =>
    refine ⟨?_, ?_⟩
    · intro pid p hp
      obtain ⟨q, hq, hle⟩ := ih.1 pid p hp
      obtain ⟨r, hr, hle2⟩ := gstep_mono step pid q hq
      exact ⟨r, hr, le_trans hle hle2⟩
    · intro hw hi
      obtain ⟨hw', hi'⟩ := ih.2 hw hi
      exact ⟨gstep_wf step hw', gstep_schedInv step hw' hi'⟩

/-- C2 witness: one guarded approve step from a concrete workspace with a
pending post raises its status and keeps it present. -/
theorem c2_guarded_status_monotone_witness :
    postStatusOf c2wstate "p1" = some .pending ∧
    (∃ q, findPost (handleApprove "ts" "e" "p1" c2wstate) "p1" = some q ∧
      statusRank (samplePost "p1" "t1" .pending (some "2025-01-01")).status ≤
        statusRank q.status) :=
  ⟨by decide,
    (c2_guarded_status_monotone c2wstate _ (Relation.ReflTransGen.single
      (GStep.approve c2wstate "ts" "e" "p1" (by decide)))).1 "p1" _ (by decide)⟩
